import Mathlib

/-!
Shallow embedding of `src/examples/can_signal_tracker.py` (move-fast/panda).

The script discovers candidate signal bits in CAN traffic: it segments a
filtered message stream into groups delimited by occurrences of a reference
message, deduplicates consecutive identical payloads per message id within a
group, tracks each id's deduplicated occurrences across groups, accumulates
per-bit toggle counts by XOR-diffing consecutive occurrences (chaining the
baseline across group boundaries), and reports ids that appear in all groups
and show a change in each.

Timestamps (Python floats) are modelled as rationals; payload hex strings are
kept as strings and parsed with `hexVal` (Python `int(s, 16)`) where the
source parses them.  Python `dict`s (insertion-ordered) are modelled as
association lists where new keys are appended at the end.
-/

set_option autoImplicit false

namespace Panda

/-- Value of a hex digit character; models the digit step of Python
`int(s, 16)`.  Non-hex characters make `int` raise in the source; they do not
occur in the inputs considered here and are mapped to 0. -/
def hexDigitVal (c : Char) : Nat :=
  if c.isDigit then c.toNat - 48
  else if 'a' ≤ c ∧ c ≤ 'f' then c.toNat - 87
  else if 'A' ≤ c ∧ c ≤ 'F' then c.toNat - 55
  else 0

/-- Models Python `int(s, 16)` on valid hex strings (a string is iterated as
its character list). -/
def hexVal (s : String) : Nat :=
  s.data.foldl (fun a c => 16 * a + hexDigitVal c) 0

/-- Models Python `int(s)` on valid decimal strings. -/
def decVal (s : String) : Nat :=
  s.data.foldl (fun a c => 10 * a + (c.toNat - 48)) 0

/-- Models Python `hex(n)[2:]` for `n : Nat` (lower-case hex digits, no
`0x` prefix). -/
def natToHex (n : Nat) : String :=
  String.mk (Nat.toDigits 16 n)

/-- Models Python `s.startswith('0x')`. -/
def startsWith0x (s : String) : Bool :=
  decide (s.data.take 2 = ['0', 'x'])

/-- Models Python `s[2:]`. -/
def drop2 (s : String) : String :=
  String.mk (s.data.drop 2)

/-- Association-list lookup; models a Python `dict` read
(`d.get(k)` / `d[k]`). -/
def alookup {α β : Type} [DecidableEq α] : List (α × β) → α → Option β
  | [], _ => none
  | (k', v) :: rest, k => if k' = k then some v else alookup rest k

/-- Association-list key membership; models Python `k in d`. -/
def keyMem {α β : Type} [DecidableEq α] (l : List (α × β)) (k : α) : Bool :=
  l.any (fun p => decide (p.1 = k))

/-- Association-list write; models Python `d[k] = v` (update in place if the
key exists, else append, preserving insertion order). -/
def setKey {α β : Type} [DecidableEq α] : List (α × β) → α → β → List (α × β)
  | [], k, v => [(k, v)]
  | (k', v') :: rest, k, v =>
    if k' = k then (k, v) :: rest else (k', v') :: setKey rest k v

/-- Association-list in-place modification; models mutating the object stored
under an existing key of a Python `dict`. -/
def updateKey {α β : Type} [DecidableEq α] : List (α × β) → α → (β → β) → List (α × β)
  | [], _, _ => []
  | (k', v) :: rest, k, f =>
    if k' = k then (k', f v) :: rest else (k', v) :: updateKey rest k f

/-- `Message` from the source: id is the composite `"bus:hex-id"` string,
`ts` the timestamp, `data` the payload hex string, `bit_changes` the
transient change mask (0 on construction). -/
structure Message where
  id : String
  ts : ℚ
  data : String
  bit_changes : Nat
  deriving DecidableEq

/-- `Message.bit_changes_from`: 0 when there is no previous message, else the
XOR of the two parsed payloads. -/
def Message.bit_changes_from (m : Message) (ref : Option Message) : Nat :=
  match ref with
  | none => 0
  | some r => hexVal m.data ^^^ hexVal r.data

/-- `Message.with_bit_changes`: the source mutates `self.bit_changes` and
returns `self`; modelled as returning the updated copy. -/
def Message.with_bit_changes (m : Message) (ref : Option Message) : Message :=
  { m with bit_changes := m.bit_changes_from ref }

/-- `MessageTypeCollection`: the messages sharing one id inside one group,
in arrival order. -/
structure MessageTypeCollection where
  id : String
  messages : List Message
  deriving DecidableEq

/-- `MessageTypeCollection.add`. -/
def MessageTypeCollection.add (c : MessageTypeCollection) (m : Message) :
    MessageTypeCollection :=
  { c with messages := c.messages ++ [m] }

/-- `MessageTypeCollection.messages_with_change`: the `functools.reduce`
keeping a message iff the kept list is empty or its `data` differs from the
last kept message's `data`. -/
def MessageTypeCollection.messages_with_change (c : MessageTypeCollection) :
    List Message :=
  c.messages.foldl
    (fun ret message =>
      match ret.getLast? with
      | none => ret ++ [message]
      | some lastKept =>
        if message.data ≠ lastKept.data then ret ++ [message] else ret)
    []

/-- `MessageGroup`: traffic between two reference occurrences, with the
per-id collections as an insertion-ordered dict. -/
structure MessageGroup where
  ts : ℚ
  ref_message : Message
  message_type_collections : List (String × MessageTypeCollection)
  deriving DecidableEq

/-- Body of `MessageGroup.add`: create the collection on first sight of the
id, then append the message to it. -/
def addToCollections : List (String × MessageTypeCollection) → Message →
    List (String × MessageTypeCollection)
  | [], m => [(m.id, ⟨m.id, [m]⟩)]
  | (k, c) :: rest, m =>
    if k = m.id then (k, c.add m) :: rest else (k, c) :: addToCollections rest m

/-- `MessageGroup.add`. -/
def MessageGroup.add (g : MessageGroup) (m : Message) : MessageGroup :=
  { g with message_type_collections := addToCollections g.message_type_collections m }

/-- `MessageGroup.with_id`: the source returns
`self.message_type_collections.get(message_id, [])`; the absent case yields a
plain empty list `[]`, not a `MessageTypeCollection`, modelled here as
`none`. -/
def MessageGroup.with_id (g : MessageGroup) (message_id : String) :
    Option MessageTypeCollection :=
  alookup g.message_type_collections message_id

/-- One CSV data row as the `load` loop reads it: `row[0]` parsed as a time,
`row[1]` the raw id field, `row[2]` the bus field, `row[3]` the data field. -/
structure Row where
  time : ℚ
  rid : String
  bus : String
  data : String
  deriving DecidableEq

/-- Models the `try: int(bus)` guard of `load` succeeding.  (Python `int`
also accepts signs and surrounding whitespace; such bus fields are not
exercised here.) -/
def intStringOk (s : String) : Bool :=
  !s.data.isEmpty && s.data.all Char.isDigit

/-- Id normalization in `load`: strip a leading `0x`, else treat the field as
decimal and render it as bare lower-case hex. -/
def normId (s : String) : String :=
  if startsWith0x s then drop2 s else natToHex (decVal s)

/-- The `Message` built for a row by `load`: composite `"bus:hex-id"` id and
the data field with any leading `0x` stripped. -/
def rowMessage (row : Row) : Message :=
  ⟨row.bus ++ ":" ++ normId row.rid, row.time,
   if startsWith0x row.data then drop2 row.data else row.data, 0⟩

/-- Segmenter state of `MessageGroups.load`: the sealed groups and the
currently open group, if any. -/
structure LoadState where
  groups : List MessageGroup
  current : Option MessageGroup
  deriving DecidableEq

/-- One iteration of the row loop of `MessageGroups.load`: skip rows outside
the window, rows whose bus field is not an integer, and rows on another bus;
a reference-id row seals the open group (if any) and opens a new one anchored
at the row's time; any other row is added to the open group, or discarded if
no group is open. -/
def loadStep (ref_message_id ref_bus : String) (start stop : ℚ)
    (st : LoadState) (row : Row) : LoadState :=
  if row.time < start ∨ stop < row.time then st
  else if !intStringOk row.bus then st
  else if row.bus ≠ ref_bus then st
  else if normId row.rid = ref_message_id then
    { groups := st.groups ++ st.current.toList,
      current := some ⟨row.time, rowMessage row, []⟩ }
  else
    match st.current with
    | none => st
    | some g => { st with current := some (g.add (rowMessage row)) }

/-- `MessageGroups.load` over already-parsed rows: fold the row loop from the
empty state.  The group left open at end of stream stays in `current` and is
never appended to `groups`. -/
def load (ref_message_id ref_bus : String) (start stop : ℚ)
    (rows : List Row) : LoadState :=
  rows.foldl (loadStep ref_message_id ref_bus start stop) ⟨[], none⟩

/-- A row that `load` treats as a reference occurrence: it passes the window,
bus-integer and bus filters and its normalized id equals the reference id. -/
def isRefRow (ref_message_id ref_bus : String) (start stop : ℚ)
    (row : Row) : Bool :=
  !(decide (row.time < start ∨ stop < row.time)) &&
    intStringOk row.bus &&
    decide (row.bus = ref_bus) &&
    decide (normId row.rid = ref_message_id)

/-- Number of reference occurrences `load` sees in a row list. -/
def refCount (ref_message_id ref_bus : String) (start stop : ℚ)
    (rows : List Row) : Nat :=
  rows.countP (fun r => isRefRow ref_message_id ref_bus start stop r)

/-- `MessageChangeTracker`: per (message-id, group) toggle-count accumulator.
`bit_comparers` is `[2**63, ..., 2**0]`, `bit_changes_count` the 64 per-bit
counters (most-significant bit first), `base_message` the running baseline
(`None` when no previous message exists).  The source stores
`self.ref_messages[group]` in `ref_message` (raising `KeyError` when absent);
the field is modelled as the lookup result. -/
structure MessageChangeTracker where
  bit_comparers : List Nat
  base_message : Option Message
  ref_message : Option Message
  bit_changes_count : List Nat
  group_ts : ℚ
  id : String
  deriving DecidableEq

/-- `MessageChangeTracker.__init__`. -/
def MessageChangeTracker.init (group_ts : ℚ) (message_id : String)
    (ref_message : Option Message) (base_message : Option Message) :
    MessageChangeTracker :=
  { bit_comparers := (List.range 64).map (fun i => 2 ^ (63 - i)),
    base_message := base_message,
    ref_message := ref_message,
    bit_changes_count := List.replicate 64 0,
    group_ts := group_ts,
    id := message_id }

/-- `MessageChangeTracker.track_changes_to`: XOR the message against the
baseline, add 1 to each counter whose comparer bit is set in the diff, and
make the message the new baseline. -/
def MessageChangeTracker.track_changes_to (t : MessageChangeTracker)
    (message : Message) : MessageChangeTracker :=
  let bit_change := message.bit_changes_from t.base_message
  let changes := t.bit_comparers.map
    (fun comparer => if comparer &&& bit_change ≠ 0 then 1 else 0)
  { t with
    bit_changes_count := (t.bit_changes_count.zip changes).map (fun p => p.1 + p.2),
    base_message := some message }

/-- `MessageTracker`: per message-id cross-group tracker.  `messages` maps
each group anchor timestamp to the accumulated deduplicated occurrences,
`ref_messages` each group anchor to the group's reference message; both are
insertion-ordered dicts. -/
structure MessageTracker where
  id : String
  messages : List (ℚ × List Message)
  ref_messages : List (ℚ × Message)
  group_count : Nat
  deriving DecidableEq

/-- `MessageTracker.__init__`. -/
def MessageTracker.init (message_id : String) (group_count : Nat) :
    MessageTracker :=
  ⟨message_id, [], [], group_count⟩

/-- `MessageTracker.add`: look up the group's collection for this id; on the
first sight of the group record an empty list and the group's reference
message; then extend the list with the deduplicated collection.  When the id
is absent, `with_id` returns the plain-list default `[]` and the call
`collection.messages_with_change()` raises `AttributeError`; that failure is
modelled as `none`. -/
def MessageTracker.add (t : MessageTracker) (message_group : MessageGroup) :
    Option MessageTracker :=
  match message_group.with_id t.id with
  | none => none
  | some collection =>
    let t' :=
      if keyMem t.messages message_group.ts then t
      else
        { t with
          messages := t.messages ++ [(message_group.ts, [])],
          ref_messages :=
            t.ref_messages ++ [(message_group.ts, message_group.ref_message)] }
    some { t' with
           messages := setKey t'.messages message_group.ts
             ((alookup t'.messages message_group.ts).getD [] ++
               collection.messages_with_change) }

/-- `MessageTracker.add` folded over a list of groups, propagating the
failure case. -/
def MessageTracker.addAll (t : MessageTracker) (gs : List MessageGroup) :
    Option MessageTracker :=
  gs.foldlM MessageTracker.add t

/-- `MessageTracker.count`: the number of recorded group keys. -/
def MessageTracker.count (t : MessageTracker) : Nat :=
  t.messages.length

/-- `MessageTracker.in_all`: `len(self.messages.keys()) >= self.group_count`. -/
def MessageTracker.in_all (t : MessageTracker) : Bool :=
  decide (t.group_count ≤ t.messages.length)

/-- `MessageTracker.group_message_tuples`: all (group key, message) pairs in
group-insertion order, then per-group list order. -/
def MessageTracker.group_message_tuples (t : MessageTracker) :
    List (ℚ × Message) :=
  (t.messages.map (fun p => p.2.map (fun m => (p.1, m)))).flatten

/-- Walk of `group_message_tuples_with_bit_changes`: set each message's
`bit_changes` from the immediately preceding message in the flattened
sequence (`None` before the first). -/
def annotateBitChanges : Option Message → List (ℚ × Message) → List (ℚ × Message)
  | _, [] => []
  | last, (group, message) :: rest =>
    let m' := message.with_bit_changes last
    (group, m') :: annotateBitChanges (some m') rest

/-- `MessageTracker.group_message_tuples_with_bit_changes`. -/
def MessageTracker.group_message_tuples_with_bit_changes (t : MessageTracker) :
    List (ℚ × Message) :=
  annotateBitChanges none t.group_message_tuples

/-- The scan loop of `MessageTracker.in_all_groups_with_change`, carrying
`current_group` and the running OR `group_changes`.  At a group transition
the source checks the accumulated OR, resets it to 0 and moves on to the
next pair without ORing in the transition message itself. -/
def changeLoop : List (ℚ × Message) → Option ℚ → Nat → Bool
  | [], _, group_changes => decide (0 < group_changes)
  | (group, message) :: rest, current_group, group_changes =>
    let cur := current_group.getD group
    if group = cur then
      changeLoop rest (some cur) (group_changes ||| message.bit_changes)
    else if group_changes = 0 then false
    else changeLoop rest (some group) 0

/-- `MessageTracker.in_all_groups_with_change`. -/
def MessageTracker.in_all_groups_with_change (t : MessageTracker) : Bool :=
  if !t.in_all then false
  else changeLoop t.group_message_tuples_with_bit_changes none 0

/-- The dict-building loop of `MessageTracker.group_change_trackers`: on the
first pair of each group key create a `MessageChangeTracker` seeded with the
previous group's last processed message as baseline, then feed the message to
the key's tracker; `prev` trails the last processed message. -/
def gctLoop (message_id : String) (ref_messages : List (ℚ × Message)) :
    List (ℚ × Message) → Option Message → List (ℚ × MessageChangeTracker) →
    List (ℚ × MessageChangeTracker)
  | [], _, change_trackers => change_trackers
  | (group, message) :: rest, prev, change_trackers =>
    let ct :=
      if keyMem change_trackers group then change_trackers
      else change_trackers ++
        [(group, MessageChangeTracker.init group message_id
            (alookup ref_messages group) prev)]
    gctLoop message_id ref_messages rest (some message)
      (updateKey ct group (fun tr => tr.track_changes_to message))

/-- `MessageTracker.group_change_trackers`: `list(change_trackers.values())`. -/
def MessageTracker.group_change_trackers (t : MessageTracker) :
    List MessageChangeTracker :=
  (gctLoop t.id t.ref_messages t.group_message_tuples none []).map (fun p => p.2)

/-! ### Spec-side definitions

Declarative reformulations of the spec's wording, to be compared with the
loop-based code transcriptions above. -/

/-- Longest prefix of a flattened sequence whose group key equals `k`,
paired with the remainder. -/
def takeRun (k : ℚ) : List (ℚ × Message) → List (ℚ × Message) × List (ℚ × Message)
  | [] => ([], [])
  | x :: xs =>
    if x.1 = k then ((x :: (takeRun k xs).1), (takeRun k xs).2)
    else ([], x :: xs)

/-- Helper for `chunk`: extend the current run while the key matches, else
emit it and start a new run. -/
def chunkAux : List (ℚ × Message) → ℚ → List (ℚ × Message) →
    List (List (ℚ × Message))
  | [], _, cur => [cur]
  | x :: xs, k, cur =>
    if x.1 = k then chunkAux xs k (cur ++ [x])
    else cur :: chunkAux xs x.1 [x]

/-- Partition of a flattened sequence into maximal consecutive runs sharing
the same group key (the spec's run decomposition). -/
def chunk : List (ℚ × Message) → List (List (ℚ × Message))
  | [] => []
  | x :: xs => chunkAux xs x.1 [x]

/-- Bitwise OR of the `bit_changes` fields of a run's messages. -/
def runOr (r : List (ℚ × Message)) : Nat :=
  r.foldl (fun a p => a ||| p.2.bit_changes) 0

/-- The Universal-change check as the spec states it: partition the
bit-changes-annotated flattened sequence into consecutive runs per group key
and require every run's OR of `bit_changes` to be nonzero. -/
def specUniversalChange (t : MessageTracker) : Bool :=
  (chunk t.group_message_tuples_with_bit_changes).all (fun r => runOr r != 0)

/-- The amended Universal-change condition: there is at least one run, the
first run's OR over all its messages is nonzero, and every later run's OR
over its messages excluding the run's first message is nonzero. -/
def specUniversalChangeDropFirst (l : List (ℚ × Message)) : Bool :=
  match chunk l with
  | [] => false
  | r0 :: rs => (runOr r0 != 0) && rs.all (fun r => runOr (r.drop 1) != 0)

/-- Chained XOR diffs of consecutive occurrences: each message is diffed
against its predecessor (the optional incoming baseline for the first one,
yielding 0 when absent). -/
def specDiffs : Option Message → List Message → List Nat
  | _, [] => []
  | b, m :: ms =>
    (match b with
     | none => 0
     | some p => hexVal m.data ^^^ hexVal p.data) :: specDiffs (some m) ms

/-- Spec-side toggle counts for one group: counter `j` (most-significant bit
first, so bit position `63 - j`) counts the chained diffs in which that bit
is set. -/
def specCounts (b : Option Message) (ms : List Message) : List Nat :=
  (List.range 64).map
    (fun j => (specDiffs b ms).countP (fun d => d.testBit (63 - j)))

/-- Spec-side Bit-Change Accumulator: one record per group entry in
insertion order; the baseline entering a group is the last occurrence of the
previous group (carried unchanged past empty entries), absent for the first
group globally. -/
def specRecords : Option Message → List (ℚ × List Message) → List (ℚ × List Nat)
  | _, [] => []
  | b, (g, ms) :: rest =>
    (g, specCounts b ms) ::
      specRecords (match ms.getLast? with | some l => some l | none => b) rest

/-! ### Proof-helper definitions -/

/-- The last element of `ms`, or `prev` when `ms` is empty. -/
def lastOr (prev : Option Message) (ms : List Message) : Option Message :=
  match ms.getLast? with
  | some l => some l
  | none => prev

/-- Folding `track_changes_to` over a message list. -/
def trackFold (t : MessageChangeTracker) (ms : List Message) :
    MessageChangeTracker :=
  ms.foldl MessageChangeTracker.track_changes_to t

/-- Per-group restatement of `gctLoop`: one tracker per entry, fed that
entry's messages, with the baseline chained through `lastOr`. -/
def recordsFold (message_id : String) (ref_messages : List (ℚ × Message)) :
    Option Message → List (ℚ × List Message) → List (ℚ × MessageChangeTracker)
  | _, [] => []
  | prev, (g, ms) :: rest =>
    (g, trackFold (MessageChangeTracker.init g message_id
          (alookup ref_messages g) prev) ms) ::
      recordsFold message_id ref_messages (lastOr prev ms) rest

/-- Recursive form of the deduplication after the first kept message: keep a
message iff its `data` differs from the previously kept `data`. -/
def dedAux : String → List Message → List Message
  | _, [] => []
  | d, m :: ms => if m.data ≠ d then m :: dedAux m.data ms else dedAux d ms

/-- No collection of the group is keyed by `bad` and no stored message
carries it as id. -/
def noRefId (bad : String) (g : MessageGroup) : Prop :=
  ∀ kc ∈ g.message_type_collections,
    kc.1 ≠ bad ∧ ∀ m ∈ kc.2.messages, m.id ≠ bad

/-! ### Association-list lemmas -/

theorem keyMem_eq_false {α β : Type} [DecidableEq α]
    {l : List (α × β)} {k : α} :
    keyMem l k = false ↔ k ∉ l.map Prod.fst := by
  rw [Bool.eq_false_iff]
  unfold keyMem
  simp [List.any_eq_true, List.mem_map]

theorem keyMem_append_self {α β : Type} [DecidableEq α]
    (l : List (α × β)) (k : α) (v : β) :
    keyMem (l ++ [(k, v)]) k = true := by
  simp [keyMem]

theorem setKey_keys_of_mem {α β : Type} [DecidableEq α]
    {l : List (α × β)} {k : α} (v : β) (h : keyMem l k = true) :
    (setKey l k v).map Prod.fst = l.map Prod.fst := by
  induction l with
  | nil => simp [keyMem] at h
  | cons p rest ih =>
    by_cases hk : p.1 = k
    · simp [setKey, hk]
    · have h' : keyMem rest k = true := by
        simpa [keyMem, hk] using h
      simp [setKey, hk, ih h']

theorem updateKey_append_last {α β : Type} [DecidableEq α]
    {l : List (α × β)} {k : α} (v : β) (f : β → β)
    (h : keyMem l k = false) :
    updateKey (l ++ [(k, v)]) k f = l ++ [(k, f v)] := by
  induction l with
  | nil => simp [updateKey]
  | cons p rest ih =>
    have hmem := keyMem_eq_false.mp h
    simp only [List.map_cons, List.mem_cons, not_or] at hmem
    have hp : ¬ (p.1 = k) := fun he => hmem.1 he.symm
    have h' : keyMem rest k = false := keyMem_eq_false.mpr hmem.2
    simp [updateKey, hp, ih h']

/-! ### Deduplicator lemmas (C7) -/

theorem foldl_dedup (l : List Message) :
    ∀ (acc : List Message) (h : acc ≠ []),
      l.foldl
        (fun ret message =>
          match ret.getLast? with
          | none => ret ++ [message]
          | some lastKept =>
            if message.data ≠ lastKept.data then ret ++ [message] else ret)
        acc = acc ++ dedAux (acc.getLast h).data l := by
  induction l with
  | nil => intro acc h; simp [dedAux]
  | cons m ms ih =>
    intro acc h
    rw [List.foldl_cons]
    have hlast : acc.getLast? = some (acc.getLast h) := List.getLast?_eq_getLast acc h
    by_cases hd : m.data = (acc.getLast h).data
    · simp only [hlast, hd, ne_eq, not_true_eq_false, if_false]
      rw [ih acc h]
      simp [dedAux, hd]
    · simp only [hlast, ne_eq, hd, not_false_eq_true, if_true]
      rw [ih (acc ++ [m]) (by simp)]
      simp [dedAux, hd, List.getLast_append]

theorem messages_with_change_eq (c : MessageTypeCollection) :
    c.messages_with_change =
      match c.messages with
      | [] => []
      | m :: ms => m :: dedAux m.data ms := by
  unfold MessageTypeCollection.messages_with_change
  cases hms : c.messages with
  | nil => simp
  | cons m ms =>
    rw [List.foldl_cons]
    simpa using foldl_dedup ms [m] (by simp)

theorem dedAux_idem : ∀ (l : List Message) (d : String),
    dedAux d (dedAux d l) = dedAux d l := by
  intro l
  induction l with
  | nil => intro d; simp [dedAux]
  | cons m ms ih =>
    intro d
    by_cases hd : m.data = d
    · simp [dedAux, hd, ih d]
    · simp [dedAux, hd, ih m.data]

/-- C7: deduplicating a collection whose message list is already the output
of deduplication yields the identical sequence. -/
theorem dedup_idempotent (c : MessageTypeCollection) :
    (MessageTypeCollection.mk c.id c.messages_with_change).messages_with_change =
      c.messages_with_change := by
  rw [messages_with_change_eq, messages_with_change_eq]
  cases hms : c.messages with
  | nil => simp
  | cons m ms => simp [dedAux_idem]

/-- C6: the code at the failing input — adding a group in which the
tracker's id has no messages does not produce an empty occurrence list; the
lookup default is a plain list and the call to `messages_with_change` on it
raises `AttributeError`, modelled as `none`. -/
theorem add_absent_id_fails :
    (MessageTracker.init "0:aa" 1).add ⟨5, ⟨"0:bb", 5, "11", 0⟩, []⟩ = none :=
  rfl

/-! ### Segmenter lemmas (C4, C9, C10) -/

theorem loadStep_skip (rid rbus : String) (start stop : ℚ)
    (st : LoadState) (row : Row)
    (h : (row.time < start ∨ stop < row.time) ∨
      intStringOk row.bus = false ∨ row.bus ≠ rbus) :
    loadStep rid rbus start stop st row = st := by
  unfold loadStep
  by_cases hA : row.time < start ∨ stop < row.time
  · rw [if_pos hA]
  · rw [if_neg hA]
    cases hB : intStringOk row.bus with
    | false => rw [if_pos (by simp [hB])]
    | true =>
      rw [if_neg (by simp [hB])]
      have hC : row.bus ≠ rbus := by
        rcases h with h | h | h
        · exact absurd h hA
        · rw [hB] at h; exact absurd h (by simp)
        · exact h
      rw [if_pos hC]

theorem isRefRow_false_of_skip (rid rbus : String) (start stop : ℚ) (row : Row)
    (h : (row.time < start ∨ stop < row.time) ∨
      intStringOk row.bus = false ∨ row.bus ≠ rbus) :
    isRefRow rid rbus start stop row = false := by
  unfold isRefRow
  rcases h with h | h | h
  · simp [h]
  · simp [h]
  · simp [h]

theorem isRefRow_of_pass (rid rbus : String) (start stop : ℚ) (row : Row)
    (ht : ¬(row.time < start ∨ stop < row.time))
    (hb : intStringOk row.bus = true) (heq : row.bus = rbus) :
    isRefRow rid rbus start stop row = decide (normId row.rid = rid) := by
  unfold isRefRow
  rw [decide_eq_false ht, decide_eq_true heq, hb]
  simp

theorem loadStep_eq (rid rbus : String) (start stop : ℚ)
    (st : LoadState) (row : Row)
    (ht : ¬(row.time < start ∨ stop < row.time))
    (hb : intStringOk row.bus = true)
    (heq : row.bus = rbus) :
    loadStep rid rbus start stop st row =
      if normId row.rid = rid then
        { groups := st.groups ++ st.current.toList,
          current := some ⟨row.time, rowMessage row, []⟩ }
      else
        { groups := st.groups,
          current := st.current.map (fun g => g.add (rowMessage row)) } := by
  obtain ⟨gs, cur⟩ := st
  unfold loadStep
  rw [if_neg ht, if_neg (by simp [hb]), if_neg (by simp [heq])]
  by_cases hD : normId row.rid = rid
  · rw [if_pos hD, if_pos hD]
  · rw [if_neg hD, if_neg hD]
    cases cur <;> rfl

theorem load_groups_length_aux (rid rbus : String) (start stop : ℚ) :
    ∀ (rows : List Row) (st : LoadState),
      (rows.foldl (loadStep rid rbus start stop) st).groups.length =
        st.groups.length +
          (match st.current with
           | none => refCount rid rbus start stop rows - 1
           | some _ => refCount rid rbus start stop rows) := by
  intro rows
  induction rows with
  | nil =>
    intro st
    cases st.current <;> simp [refCount]
  | cons row rows ih =>
    intro st
    rw [List.foldl_cons, ih (loadStep rid rbus start stop st row)]
    by_cases hskip : (row.time < start ∨ stop < row.time) ∨
        intStringOk row.bus = false ∨ row.bus ≠ rbus
    · rw [loadStep_skip rid rbus start stop st row hskip]
      have hcnt : refCount rid rbus start stop (row :: rows) =
          refCount rid rbus start stop rows := by
        simp [refCount, List.countP_cons,
          isRefRow_false_of_skip rid rbus start stop row hskip]
      rw [hcnt]
    · have ht : ¬(row.time < start ∨ stop < row.time) :=
        fun h => hskip (Or.inl h)
      have hb' : intStringOk row.bus = true := by
        cases h : intStringOk row.bus with
        | false => exact absurd (Or.inr (Or.inl h)) hskip
        | true => rfl
      have heq : row.bus = rbus := by
        by_contra hne
        exact hskip (Or.inr (Or.inr hne))
      rw [loadStep_eq rid rbus start stop st row ht hb' heq]
      have hcnt : refCount rid rbus start stop (row :: rows) =
          refCount rid rbus start stop rows +
            (if normId row.rid = rid then 1 else 0) := by
        simp [refCount, List.countP_cons,
          isRefRow_of_pass rid rbus start stop row ht hb' heq]
      rw [hcnt]
      by_cases hD : normId row.rid = rid
      · rw [if_pos hD, if_pos hD]
        cases hcur : st.current <;> simp <;> omega
      · rw [if_neg hD, if_neg hD]
        cases hcur : st.current <;> simp

/-- C4: for a stream containing `n ≥ 1` reference occurrences (among the
in-window rows on the target bus), `load` seals exactly `n - 1` groups:
traffic before the first reference is discarded and the group left open at
end of stream is never appended. -/
theorem segmenter_group_count (rid rbus : String) (start stop : ℚ)
    (rows : List Row) (h : 1 ≤ refCount rid rbus start stop rows) :
    (load rid rbus start stop rows).groups.length =
      refCount rid rbus start stop rows - 1 := by
  have haux := load_groups_length_aux rid rbus start stop rows ⟨[], none⟩
  simpa [load] using haux

theorem segmenter_group_count_witness :
    1 ≤ refCount "ab" "0" 0 10
        [⟨1, "0xab", "0", "0x11"⟩, ⟨2, "0x22", "0", "07"⟩,
         ⟨3, "0xab", "0", "11"⟩, ⟨4, "0xab", "0", "11"⟩] ∧
      (load "ab" "0" 0 10
          [⟨1, "0xab", "0", "0x11"⟩, ⟨2, "0x22", "0", "07"⟩,
           ⟨3, "0xab", "0", "11"⟩, ⟨4, "0xab", "0", "11"⟩]).groups.length =
        refCount "ab" "0" 0 10
          [⟨1, "0xab", "0", "0x11"⟩, ⟨2, "0x22", "0", "07"⟩,
           ⟨3, "0xab", "0", "11"⟩, ⟨4, "0xab", "0", "11"⟩] - 1 :=
  ⟨by decide,
   segmenter_group_count "ab" "0" 0 10
     [⟨1, "0xab", "0", "0x11"⟩, ⟨2, "0x22", "0", "07"⟩,
      ⟨3, "0xab", "0", "11"⟩, ⟨4, "0xab", "0", "11"⟩] (by decide)⟩

/-- C9 counterexample: the row id `0xAB` normalizes to `AB`, which differs
from the reference id `ab` only in letter case (the character-code facts pin
this down), yet the row does not seal the open group — it is added to it as
an ordinary message, so it is not treated as a reference occurrence. -/
theorem reference_case_mismatch_counterexample :
    normId "0xAB" = "AB" ∧ ("AB" : String) ≠ "ab" ∧
      ('A'.toNat + 32 = 'a'.toNat ∧ 'B'.toNat + 32 = 'b'.toNat) ∧
      (loadStep "ab" "0" 0 10
          ⟨[], some ⟨0, ⟨"0:ab", 0, "00", 0⟩, []⟩⟩
          ⟨1, "0xAB", "0", "0011"⟩).groups = [] ∧
      (loadStep "ab" "0" 0 10
          ⟨[], some ⟨0, ⟨"0:ab", 0, "00", 0⟩, []⟩⟩
          ⟨1, "0xAB", "0", "0011"⟩).current =
        some ((MessageGroup.mk 0 ⟨"0:ab", 0, "00", 0⟩ []).add
          (rowMessage ⟨1, "0xAB", "0", "0011"⟩)) := by
  decide

/-- C9 amended: a row passing the window and bus filters is treated as a
reference occurrence (sealing the open group and anchoring a new one) if and
only if its normalized id is string-equal to the reference id — the match is
exact, hence case-sensitive; otherwise the row is an ordinary message. -/
theorem reference_match_exact (rid rbus : String) (start stop : ℚ)
    (st : LoadState) (row : Row)
    (ht : ¬(row.time < start ∨ stop < row.time))
    (hb : intStringOk row.bus = true)
    (heq : row.bus = rbus) :
    loadStep rid rbus start stop st row =
      if normId row.rid = rid then
        { groups := st.groups ++ st.current.toList,
          current := some ⟨row.time, rowMessage row, []⟩ }
      else
        { groups := st.groups,
          current := st.current.map (fun g => g.add (rowMessage row)) } :=
  loadStep_eq rid rbus start stop st row ht hb heq

theorem reference_match_exact_witness :
    loadStep "ab" "0" 0 10 ⟨[], none⟩ ⟨1, "0xab", "0", "07"⟩ =
      (if normId (Row.mk 1 "0xab" "0" "07").rid = "ab" then
        { groups := [],
          current := some ⟨1, rowMessage ⟨1, "0xab", "0", "07"⟩, []⟩ }
       else
        { groups := [], current := none }) :=
  reference_match_exact "ab" "0" 0 10 ⟨[], none⟩ ⟨1, "0xab", "0", "07"⟩
    (by decide) (by decide) rfl

theorem string_append_right_ne (a : String) {x y : String} (h : x ≠ y) :
    a ++ x ≠ a ++ y := by
  intro he
  have hd : a.data ++ x.data = a.data ++ y.data := by
    have hh := congrArg String.data he
    simpa [String.data_append] using hh
  exact h (String.ext (List.append_cancel_left hd))

theorem addToCollections_pres {bad : String} (m : Message) (hm : m.id ≠ bad) :
    ∀ (cols : List (String × MessageTypeCollection)),
      (∀ kc ∈ cols, kc.1 ≠ bad ∧ ∀ x ∈ kc.2.messages, x.id ≠ bad) →
      ∀ kc ∈ addToCollections cols m,
        kc.1 ≠ bad ∧ ∀ x ∈ kc.2.messages, x.id ≠ bad := by
  intro cols
  induction cols with
  | nil =>
    intro _ kc hkc
    simp only [addToCollections, List.mem_singleton] at hkc
    subst hkc
    exact ⟨hm, by simpa using hm⟩
  | cons p rest ih =>
    intro hall kc hkc
    unfold addToCollections at hkc
    by_cases hp : p.1 = m.id
    · rw [if_pos hp] at hkc
      rcases List.mem_cons.mp hkc with rfl | hkc'
      · obtain ⟨h1, h2⟩ := hall p (List.mem_cons_self _ _)
        refine ⟨h1, ?_⟩
        intro x hx
        rcases List.mem_append.mp hx with hx' | hx'
        · exact h2 x hx'
        · rw [List.mem_singleton.mp hx']; exact hm
      · exact hall kc (List.mem_cons_of_mem _ hkc')
    · rw [if_neg hp] at hkc
      rcases List.mem_cons.mp hkc with rfl | hkc'
      · exact hall p (List.mem_cons_self _ _)
      · exact ih (fun q hq => hall q (List.mem_cons_of_mem _ hq)) kc hkc'

theorem loadStep_noRefId (rid rbus : String) (start stop : ℚ)
    (st : LoadState) (row : Row)
    (hg : ∀ g ∈ st.groups, noRefId (rbus ++ ":" ++ rid) g)
    (hc : ∀ g, st.current = some g → noRefId (rbus ++ ":" ++ rid) g) :
    (∀ g ∈ (loadStep rid rbus start stop st row).groups,
        noRefId (rbus ++ ":" ++ rid) g) ∧
      (∀ g, (loadStep rid rbus start stop st row).current = some g →
        noRefId (rbus ++ ":" ++ rid) g) := by
  by_cases hskip : (row.time < start ∨ stop < row.time) ∨
      intStringOk row.bus = false ∨ row.bus ≠ rbus
  · rw [loadStep_skip rid rbus start stop st row hskip]
    exact ⟨hg, hc⟩
  · have ht : ¬(row.time < start ∨ stop < row.time) :=
      fun h => hskip (Or.inl h)
    have hb' : intStringOk row.bus = true := by
      cases h : intStringOk row.bus with
      | false => exact absurd (Or.inr (Or.inl h)) hskip
      | true => rfl
    have heq : row.bus = rbus := by
      by_contra hne
      exact hskip (Or.inr (Or.inr hne))
    rw [loadStep_eq rid rbus start stop st row ht hb' heq]
    by_cases hD : normId row.rid = rid
    · rw [if_pos hD]
      constructor
      · intro g hgmem
        dsimp only at hgmem
        rcases List.mem_append.mp hgmem with hmem | hmem
        · exact hg g hmem
        · cases hcur : st.current with
          | none => rw [hcur] at hmem; simp at hmem
          | some g0 =>
            rw [hcur] at hmem
            simp only [Option.toList_some, List.mem_singleton] at hmem
            rw [hmem]
            exact hc g0 hcur
      · intro g hgeq
        dsimp only at hgeq
        simp only [Option.some.injEq] at hgeq
        subst hgeq
        intro kc hkc
        simp at hkc
    · rw [if_neg hD]
      refine ⟨hg, ?_⟩
      intro g hgeq
      dsimp only at hgeq
      cases hcur : st.current with
      | none => rw [hcur] at hgeq; simp at hgeq
      | some g0 =>
        rw [hcur] at hgeq
        simp only [Option.map_some', Option.some.injEq] at hgeq
        subst hgeq
        have hm : (rowMessage row).id ≠ rbus ++ ":" ++ rid := by
          show row.bus ++ ":" ++ normId row.rid ≠ rbus ++ ":" ++ rid
          rw [heq]
          exact string_append_right_ne (rbus ++ ":") hD
        exact addToCollections_pres (rowMessage row) hm
          g0.message_type_collections (hc g0 hcur)

theorem load_noRefId_aux (rid rbus : String) (start stop : ℚ) :
    ∀ (rows : List Row) (st : LoadState),
      (∀ g ∈ st.groups, noRefId (rbus ++ ":" ++ rid) g) →
      (∀ g, st.current = some g → noRefId (rbus ++ ":" ++ rid) g) →
      ∀ g ∈ (rows.foldl (loadStep rid rbus start stop) st).groups,
        noRefId (rbus ++ ":" ++ rid) g := by
  intro rows
  induction rows with
  | nil => intro st hg _; simpa using hg
  | cons row rows ih =>
    intro st hg hc
    rw [List.foldl_cons]
    obtain ⟨hg', hc'⟩ := loadStep_noRefId rid rbus start stop st row hg hc
    exact ih _ hg' hc'

/-- C10: in every sealed group produced by `load`, no collection is keyed by
the reference composite id and no stored message carries it: reference-id
rows only ever become group anchors, so the reference id never acquires a
tracker and is never reported. -/
theorem reference_id_never_tracked (rid rbus : String) (start stop : ℚ)
    (rows : List Row) (g : MessageGroup)
    (hgmem : g ∈ (load rid rbus start stop rows).groups)
    (kc : String × MessageTypeCollection)
    (hkc : kc ∈ g.message_type_collections) :
    kc.1 ≠ rbus ++ ":" ++ rid ∧
      ∀ m ∈ kc.2.messages, m.id ≠ rbus ++ ":" ++ rid := by
  have h := load_noRefId_aux rid rbus start stop rows ⟨[], none⟩
    (by simp) (by simp) g hgmem
  exact h kc hkc

/-! ### Presence lemmas (C5) -/

theorem add_keys (t : MessageTracker) (g : MessageGroup)
    (c : MessageTypeCollection)
    (hc : g.with_id t.id = some c) (hk : keyMem t.messages g.ts = false) :
    ∃ t₁, t.add g = some t₁ ∧
      t₁.messages.map Prod.fst = t.messages.map Prod.fst ++ [g.ts] ∧
      t₁.group_count = t.group_count ∧ t₁.id = t.id := by
  unfold MessageTracker.add
  rw [hc]
  rw [if_neg (by simp [hk])]
  refine ⟨_, rfl, ?_, rfl, rfl⟩
  rw [setKey_keys_of_mem _ (keyMem_append_self t.messages g.ts [])]
  simp

theorem addAll_keys :
    ∀ (hs : List MessageGroup) (t : MessageTracker),
      (∀ g ∈ hs, (MessageGroup.with_id g t.id).isSome = true) →
      (hs.map MessageGroup.ts).Nodup →
      (∀ g ∈ hs, keyMem t.messages g.ts = false) →
      ∃ t', t.addAll hs = some t' ∧
        t'.messages.map Prod.fst =
          t.messages.map Prod.fst ++ hs.map MessageGroup.ts ∧
        t'.group_count = t.group_count ∧ t'.id = t.id := by
  intro hs
  induction hs with
  | nil =>
    intro t _ _ _
    exact ⟨t, rfl, by simp, rfl, rfl⟩
  | cons g hs ih =>
    intro t hsome hnd hkey
    obtain ⟨c, hc⟩ := Option.isSome_iff_exists.mp (hsome g (List.mem_cons_self _ _))
    obtain ⟨t₁, hadd, hkeys₁, hgc₁, hid₁⟩ :=
      add_keys t g c hc (hkey g (List.mem_cons_self _ _))
    have hsome' : ∀ g' ∈ hs, (MessageGroup.with_id g' t₁.id).isSome = true := by
      intro g' hg'
      rw [hid₁]
      exact hsome g' (List.mem_cons_of_mem _ hg')
    have hnd' : (hs.map MessageGroup.ts).Nodup := (List.nodup_cons.mp hnd).2
    have hkey' : ∀ g' ∈ hs, keyMem t₁.messages g'.ts = false := by
      intro g' hg'
      rw [keyMem_eq_false, hkeys₁]
      simp only [List.mem_append, List.mem_singleton]
      rintro (hmem | hmem)
      · exact absurd hmem
          (keyMem_eq_false.mp (hkey g' (List.mem_cons_of_mem _ hg')))
      · have := (List.nodup_cons.mp hnd).1
        exact this (hmem ▸ List.mem_map_of_mem MessageGroup.ts hg')
    obtain ⟨t', hall, hkeys', hgc', hid'⟩ := ih t₁ hsome' hnd' hkey'
    refine ⟨t', ?_, ?_, by rw [hgc', hgc₁], by rw [hid', hid₁]⟩
    · show (g :: hs).foldlM MessageTracker.add t = some t'
      rw [List.foldlM_cons, hadd]
      exact hall
    · rw [hkeys', hkeys₁]
      simp

/-- C5: a tracker built by adding, once each, the sealed groups that contain
its id (with all group anchors distinct) records at most `totalGroups` group
keys, and `in_all` holds iff the number of recorded group keys equals
`totalGroups` exactly. -/
theorem presence_iff (message_id : String) (gs : List MessageGroup)
    (hnd : (gs.map MessageGroup.ts).Nodup) (t' : MessageTracker)
    (h : (MessageTracker.init message_id gs.length).addAll
        (gs.filter (fun g => (g.with_id message_id).isSome)) = some t') :
    t'.count ≤ gs.length ∧ (t'.in_all = true ↔ t'.count = gs.length) := by
  have hsome : ∀ g ∈ gs.filter (fun g => (g.with_id message_id).isSome),
      (MessageGroup.with_id g (MessageTracker.init message_id gs.length).id).isSome
        = true := by
    intro g hg
    have hp := List.of_mem_filter hg
    simpa using hp
  have hnd' : ((gs.filter (fun g => (g.with_id message_id).isSome)).map
      MessageGroup.ts).Nodup :=
    hnd.sublist (List.Sublist.map _ (List.filter_sublist _))
  have hkey : ∀ g ∈ gs.filter (fun g => (g.with_id message_id).isSome),
      keyMem (MessageTracker.init message_id gs.length).messages g.ts = false := by
    intro g _
    simp [MessageTracker.init, keyMem]
  obtain ⟨t'', hall, hkeys, hgc, _⟩ := addAll_keys
    (gs.filter (fun g => (g.with_id message_id).isSome))
    (MessageTracker.init message_id gs.length) hsome hnd' hkey
  rw [h] at hall
  obtain rfl : t' = t'' := Option.some_injective _ hall
  have hcount : t'.count =
      (gs.filter (fun g => (g.with_id message_id).isSome)).length := by
    have := congrArg List.length hkeys
    simpa [MessageTracker.count, MessageTracker.init] using this
  have hle : t'.count ≤ gs.length := by
    rw [hcount]
    exact List.length_filter_le _ _
  refine ⟨hle, ?_⟩
  have hgc' : t'.group_count = gs.length := by
    simpa [MessageTracker.init] using hgc
  unfold MessageTracker.in_all
  rw [show t'.messages.length = t'.count from rfl, hgc']
  simp only [decide_eq_true_eq]
  omega

theorem presence_iff_witness :
    (MessageTracker.mk "0:11" [(1, [⟨"0:11", 1, "01", 0⟩])]
        [(1, ⟨"0:aa", 0, "00", 0⟩)] 1).count ≤ 1 ∧
      ((MessageTracker.mk "0:11" [(1, [⟨"0:11", 1, "01", 0⟩])]
          [(1, ⟨"0:aa", 0, "00", 0⟩)] 1).in_all = true ↔
        (MessageTracker.mk "0:11" [(1, [⟨"0:11", 1, "01", 0⟩])]
          [(1, ⟨"0:aa", 0, "00", 0⟩)] 1).count = 1) :=
  presence_iff "0:11"
    [⟨1, ⟨"0:aa", 0, "00", 0⟩, [("0:11", ⟨"0:11", [⟨"0:11", 1, "01", 0⟩]⟩)]⟩]
    (by decide)
    (MessageTracker.mk "0:11" [(1, [⟨"0:11", 1, "01", 0⟩])]
      [(1, ⟨"0:aa", 0, "00", 0⟩)] 1)
    (by decide)

/-! ### Bit-Change Accumulator lemmas (C2, C8) -/

theorem lastOr_cons (prev : Option Message) (m : Message) (ms : List Message) :
    lastOr prev (m :: ms) = lastOr (some m) ms := by
  cases ms with
  | nil => simp [lastOr]
  | cons b l =>
    unfold lastOr
    rw [List.getLast?_cons_cons, List.getLast?_eq_getLast (b :: l) (by simp)]

theorem gctLoop_run_at_end (message_id : String)
    (refs : List (ℚ × Message)) :
    ∀ (ms : List Message) (g : ℚ) (rest : List (ℚ × Message))
      (acc : List (ℚ × MessageChangeTracker)) (tr : MessageChangeTracker)
      (prev : Option Message),
      keyMem acc g = false →
      gctLoop message_id refs (ms.map (fun m => (g, m)) ++ rest) prev
          (acc ++ [(g, tr)]) =
        gctLoop message_id refs rest (lastOr prev ms)
          (acc ++ [(g, trackFold tr ms)]) := by
  intro ms
  induction ms with
  | nil =>
    intro g rest acc tr prev _
    simp [lastOr, trackFold]
  | cons m ms ih =>
    intro g rest acc tr prev hk
    rw [List.map_cons, List.cons_append]
    show gctLoop message_id refs (ms.map (fun m => (g, m)) ++ rest) (some m)
        (updateKey
          (if keyMem (acc ++ [(g, tr)]) g then acc ++ [(g, tr)]
           else (acc ++ [(g, tr)]) ++
             [(g, MessageChangeTracker.init g message_id (alookup refs g) prev)])
          g (fun tr => tr.track_changes_to m)) = _
    rw [if_pos (keyMem_append_self acc g tr)]
    rw [updateKey_append_last tr _ hk]
    rw [ih g rest acc (tr.track_changes_to m) (some m) hk]
    rw [lastOr_cons]
    rfl

theorem gctLoop_run (message_id : String) (refs : List (ℚ × Message))
    (ms : List Message) (g : ℚ) (rest : List (ℚ × Message))
    (acc : List (ℚ × MessageChangeTracker)) (prev : Option Message)
    (hne : ms ≠ []) (hk : keyMem acc g = false) :
    gctLoop message_id refs (ms.map (fun m => (g, m)) ++ rest) prev acc =
      gctLoop message_id refs rest (lastOr prev ms)
        (acc ++ [(g, trackFold
          (MessageChangeTracker.init g message_id (alookup refs g) prev) ms)]) := by
  cases ms with
  | nil => exact absurd rfl hne
  | cons m ms =>
    rw [List.map_cons, List.cons_append]
    show gctLoop message_id refs (ms.map (fun m => (g, m)) ++ rest) (some m)
        (updateKey
          (if keyMem acc g then acc
           else acc ++
             [(g, MessageChangeTracker.init g message_id (alookup refs g) prev)])
          g (fun tr => tr.track_changes_to m)) = _
    rw [if_neg (by simp [hk])]
    rw [updateKey_append_last _ _ hk]
    rw [gctLoop_run_at_end message_id refs ms g rest acc _ (some m) hk]
    rw [lastOr_cons]
    rfl

theorem gctLoop_groups (message_id : String) (refs : List (ℚ × Message)) :
    ∀ (L : List (ℚ × List Message)) (prev : Option Message)
      (acc : List (ℚ × MessageChangeTracker)),
      (L.map Prod.fst).Nodup →
      (∀ p ∈ L, p.2 ≠ []) →
      (∀ p ∈ L, keyMem acc p.1 = false) →
      gctLoop message_id refs
          ((L.map (fun p => p.2.map (fun m => (p.1, m)))).flatten) prev acc =
        acc ++ recordsFold message_id refs prev L := by
  intro L
  induction L with
  | nil =>
    intro prev acc _ _ _
    simp [gctLoop, recordsFold]
  | cons p L ih =>
    intro prev acc hnd hne hkey
    obtain ⟨g, ms⟩ := p
    rw [List.map_cons, List.flatten_cons]
    rw [gctLoop_run message_id refs ms g _ acc prev
      (hne (g, ms) (List.mem_cons_self _ _)) (hkey (g, ms) (List.mem_cons_self _ _))]
    rw [ih (lastOr prev ms)
      (acc ++ [(g, trackFold
        (MessageChangeTracker.init g message_id (alookup refs g) prev) ms)])
      (List.nodup_cons.mp hnd).2
      (fun q hq => hne q (List.mem_cons_of_mem _ hq))
      ?_]
    · rw [recordsFold, List.append_assoc]
      rfl
    · intro q hq
      rw [keyMem_eq_false]
      simp only [List.map_append, List.map_cons, List.map_nil, List.mem_append,
        List.mem_singleton]
      rintro (hmem | hmem)
      · exact absurd hmem
          (keyMem_eq_false.mp (hkey q (List.mem_cons_of_mem _ hq)))
      · have hgq : q.1 ∈ L.map Prod.fst := List.mem_map_of_mem Prod.fst hq
        exact (List.nodup_cons.mp hnd).1 (hmem ▸ hgq)

theorem two_pow_and_ne_zero_iff (i bc : Nat) :
    (2 ^ i &&& bc ≠ 0) ↔ bc.testBit i = true := by
  rw [Nat.two_pow_and]
  cases h : bc.testBit i <;> simp [h, Nat.pos_iff_ne_zero, Nat.pow_pos]

theorem track_counts (t : MessageChangeTracker) (m : Message)
    (hcmp : t.bit_comparers = (List.range 64).map (fun i => 2 ^ (63 - i)))
    (hlen : t.bit_changes_count.length = 64) :
    (t.track_changes_to m).bit_changes_count.length = 64 ∧
      ∀ j, j < 64 →
        (t.track_changes_to m).bit_changes_count.getD j 0 =
          t.bit_changes_count.getD j 0 +
            (if (m.bit_changes_from t.base_message).testBit (63 - j) then 1
             else 0) := by
  unfold MessageChangeTracker.track_changes_to
  set bc := m.bit_changes_from t.base_message with hbc
  have hclen : (t.bit_comparers.map
      (fun comparer => if comparer &&& bc ≠ 0 then 1 else 0)).length = 64 := by
    simp [hcmp]
  constructor
  · simp only [List.length_map, List.length_zip, hlen, hclen]
    simp [hlen, hclen]
  · intro j hj
    have h1 : j < ((t.bit_changes_count.zip
        (t.bit_comparers.map (fun comparer => if comparer &&& bc ≠ 0 then 1
          else 0))).map (fun p => p.1 + p.2)).length := by
      simp only [List.length_map, List.length_zip, hlen, hclen]
      simpa using hj
    rw [List.getD_eq_getElem _ 0 h1]
    have h2 : j < (t.bit_changes_count.zip
        (t.bit_comparers.map (fun comparer => if comparer &&& bc ≠ 0 then 1
          else 0))).length := by simpa using h1
    rw [List.getElem_map]
    rw [List.getElem_zip]
    rw [← List.getD_eq_getElem t.bit_changes_count 0 (by omega)]
    congr 1
    rw [List.getElem_map]
    have hjc : j < t.bit_comparers.length := by
      simp only [hcmp, List.length_map, List.length_range]
      omega
    have h4 : t.bit_comparers[j] = 2 ^ (63 - j) := by
      simp [hcmp]
    rw [h4]
    by_cases htb : bc.testBit (63 - j) = true
    · rw [if_pos ((two_pow_and_ne_zero_iff (63 - j) bc).mpr htb), if_pos htb]
    · rw [if_neg (fun hcon =>
        htb ((two_pow_and_ne_zero_iff (63 - j) bc).mp hcon)), if_neg htb]

theorem trackFold_spec :
    ∀ (ms : List Message) (t : MessageChangeTracker),
      t.bit_comparers = (List.range 64).map (fun i => 2 ^ (63 - i)) →
      t.bit_changes_count.length = 64 →
      (trackFold t ms).group_ts = t.group_ts ∧
        (trackFold t ms).ref_message = t.ref_message ∧
        (trackFold t ms).id = t.id ∧
        (trackFold t ms).base_message = lastOr t.base_message ms ∧
        (trackFold t ms).bit_changes_count.length = 64 ∧
        ∀ j, j < 64 →
          (trackFold t ms).bit_changes_count.getD j 0 =
            t.bit_changes_count.getD j 0 +
              (specDiffs t.base_message ms).countP
                (fun d => d.testBit (63 - j)) := by
  intro ms
  induction ms with
  | nil =>
    intro t _ hlen
    refine ⟨rfl, rfl, rfl, by simp [trackFold, lastOr], hlen, ?_⟩
    intro j _
    simp [trackFold, specDiffs]
  | cons m ms ih =>
    intro t hcmp hlen
    have hstep := track_counts t m hcmp hlen
    have hfold : trackFold t (m :: ms) = trackFold (t.track_changes_to m) ms :=
      rfl
    have hcmp' : (t.track_changes_to m).bit_comparers =
        (List.range 64).map (fun i => 2 ^ (63 - i)) := hcmp
    obtain ⟨hg, hr, hi, hb, hl, hcount⟩ :=
      ih (t.track_changes_to m) hcmp' hstep.1
    rw [hfold]
    refine ⟨hg, hr, hi, ?_, hl, ?_⟩
    · rw [hb]
      show lastOr (some m) ms = _
      rw [lastOr_cons]
    · intro j hj
      rw [hcount j hj]
      show _ = t.bit_changes_count.getD j 0 +
        (specDiffs t.base_message (m :: ms)).countP (fun d => d.testBit (63 - j))
      have hsd : specDiffs t.base_message (m :: ms) =
          m.bit_changes_from t.base_message :: specDiffs (some m) ms := rfl
      have hbase : (t.track_changes_to m).base_message = some m := rfl
      rw [hsd, List.countP_cons, hstep.2 j hj, hbase]
      rcases Bool.eq_false_or_eq_true
          ((m.bit_changes_from t.base_message).testBit (63 - j)) with htb | htb <;>
        simp [htb] <;> omega

theorem list_eq_range_map (l : List Nat) (F : Nat → Nat)
    (hlen : l.length = 64) (h : ∀ j, j < 64 → l.getD j 0 = F j) :
    l = (List.range 64).map F := by
  apply List.ext_getElem (by simp [hlen])
  intro j h1 h2
  rw [List.getElem_map, List.getElem_range]
  rw [← List.getD_eq_getElem l 0 h1]
  exact h j (by omega)

theorem recordsFold_spec (message_id : String) (refs : List (ℚ × Message)) :
    ∀ (L : List (ℚ × List Message)) (prev : Option Message),
      (recordsFold message_id refs prev L).map
          (fun p => (p.2.group_ts, p.2.bit_changes_count)) =
        specRecords prev L := by
  intro L
  induction L with
  | nil => intro prev; rfl
  | cons p L ih =>
    intro prev
    obtain ⟨g, ms⟩ := p
    rw [recordsFold, specRecords, List.map_cons]
    have hspec := trackFold_spec ms
      (MessageChangeTracker.init g message_id (alookup refs g) prev)
      rfl (by simp [MessageChangeTracker.init])
    obtain ⟨hg, _, _, _, hl, hcount⟩ := hspec
    congr 1
    · rw [Prod.ext_iff]
      refine ⟨hg, ?_⟩
      show (trackFold _ ms).bit_changes_count = specCounts prev ms
      unfold specCounts
      apply list_eq_range_map _ _ hl
      intro j hj
      rw [hcount j hj]
      have hz : (MessageChangeTracker.init g message_id (alookup refs g)
          prev).bit_changes_count.getD j 0 = 0 := by
        show (List.replicate 64 (0 : Nat)).getD j 0 = 0
        rw [List.getD_eq_getElem _ 0 (by simpa using hj)]
        exact List.getElem_replicate ..
      rw [hz]
      show 0 + (specDiffs prev ms).countP (fun d => d.testBit (63 - j)) = _
      rw [Nat.zero_add]
    · have hlast : lastOr prev ms =
          (match ms.getLast? with | some l => some l | none => prev) := rfl
      rw [← hlast]
      exact ih (lastOr prev ms)

theorem recordsFold_length (message_id : String) (refs : List (ℚ × Message)) :
    ∀ (L : List (ℚ × List Message)) (prev : Option Message),
      (recordsFold message_id refs prev L).length = L.length := by
  intro L
  induction L with
  | nil => intro prev; rfl
  | cons p L ih =>
    intro prev
    obtain ⟨g, ms⟩ := p
    rw [recordsFold]
    simp only [List.length_cons, ih]

theorem group_change_trackers_eq (t : MessageTracker)
    (hnd : (t.messages.map Prod.fst).Nodup)
    (hne : ∀ p ∈ t.messages, p.2 ≠ []) :
    t.group_change_trackers =
      (recordsFold t.id t.ref_messages none t.messages).map (fun p => p.2) := by
  unfold MessageTracker.group_change_trackers MessageTracker.group_message_tuples
  rw [gctLoop_groups t.id t.ref_messages t.messages none [] hnd hne
    (fun p _ => by simp [keyMem])]
  rfl

/-- C2: for a well-formed tracker state (distinct group keys, nonempty
per-group occurrence lists), the Bit-Change Accumulator produces one
ChangeRecord per group key in insertion order, whose toggle counts are the
per-bit counts of the chained XOR diffs of consecutive occurrences, where
the first diff of each group uses the last occurrence of the previous group
as baseline and the first group's baseline is absent (all-zero first diff,
contributing no increments). -/
theorem bit_change_accumulator_chaining (t : MessageTracker)
    (hnd : (t.messages.map Prod.fst).Nodup)
    (hne : ∀ p ∈ t.messages, p.2 ≠ []) :
    (t.group_change_trackers).map
        (fun tr => (tr.group_ts, tr.bit_changes_count)) =
      specRecords none t.messages := by
  rw [group_change_trackers_eq t hnd hne, List.map_map]
  exact recordsFold_spec t.id t.ref_messages t.messages none

theorem bit_change_accumulator_chaining_witness :
    ((MessageTracker.mk "0:11"
        [(1, [⟨"0:11", 1, "01", 0⟩, ⟨"0:11", 1, "02", 0⟩]),
         (2, [⟨"0:11", 2, "05", 0⟩])]
        [(1, ⟨"0:aa", 0, "00", 0⟩), (2, ⟨"0:aa", 0, "00", 0⟩)]
        2).group_change_trackers).map
        (fun tr => (tr.group_ts, tr.bit_changes_count)) =
      specRecords none
        [(1, [⟨"0:11", 1, "01", 0⟩, ⟨"0:11", 1, "02", 0⟩]),
         (2, [⟨"0:11", 2, "05", 0⟩])] :=
  bit_change_accumulator_chaining
    (MessageTracker.mk "0:11"
      [(1, [⟨"0:11", 1, "01", 0⟩, ⟨"0:11", 1, "02", 0⟩]),
       (2, [⟨"0:11", 2, "05", 0⟩])]
      [(1, ⟨"0:aa", 0, "00", 0⟩), (2, ⟨"0:aa", 0, "00", 0⟩)] 2)
    (by decide) (by decide)

/-- C8: the report built by `bit_changes_str` emits one data row per
ChangeRecord after skipping the first in group order (`[1:]`); for a
well-formed nonempty tracker state the number of rows is the number of
distinct groups the id appears in, minus 1. -/
theorem report_skip_invariant (t : MessageTracker)
    (hnd : (t.messages.map Prod.fst).Nodup)
    (hne : ∀ p ∈ t.messages, p.2 ≠ [])
    (h0 : t.messages ≠ []) :
    ((t.group_change_trackers).drop 1).length = t.count - 1 := by
  rw [group_change_trackers_eq t hnd hne]
  simp [recordsFold_length, MessageTracker.count]

theorem report_skip_invariant_witness :
    (((MessageTracker.mk "0:11"
        [(1, [⟨"0:11", 1, "01", 0⟩, ⟨"0:11", 1, "02", 0⟩]),
         (2, [⟨"0:11", 2, "05", 0⟩])]
        [(1, ⟨"0:aa", 0, "00", 0⟩), (2, ⟨"0:aa", 0, "00", 0⟩)]
        2).group_change_trackers).drop 1).length =
      (MessageTracker.mk "0:11"
        [(1, [⟨"0:11", 1, "01", 0⟩, ⟨"0:11", 1, "02", 0⟩]),
         (2, [⟨"0:11", 2, "05", 0⟩])]
        [(1, ⟨"0:aa", 0, "00", 0⟩), (2, ⟨"0:aa", 0, "00", 0⟩)] 2).count - 1 :=
  report_skip_invariant
    (MessageTracker.mk "0:11"
      [(1, [⟨"0:11", 1, "01", 0⟩, ⟨"0:11", 1, "02", 0⟩]),
       (2, [⟨"0:11", 2, "05", 0⟩])]
      [(1, ⟨"0:aa", 0, "00", 0⟩), (2, ⟨"0:aa", 0, "00", 0⟩)] 2)
    (by decide) (by decide) (by decide)

/-! ### Universal-change lemmas (C1) -/

theorem bne_zero_eq (x : Nat) : (x != 0) = decide (0 < x) := by
  cases x <;> simp

theorem runOr_shift (r : List (ℚ × Message)) :
    ∀ a : Nat,
      r.foldl (fun acc p => acc ||| p.2.bit_changes) a = a ||| runOr r := by
  induction r with
  | nil => intro a; simp [runOr]
  | cons p r ih =>
    intro a
    rw [List.foldl_cons, ih (a ||| p.2.bit_changes)]
    unfold runOr
    rw [List.foldl_cons, ih (0 ||| p.2.bit_changes)]
    rw [Nat.zero_or, Nat.lor_assoc]
    rfl

theorem runOr_cons (x : ℚ × Message) (r : List (ℚ × Message)) :
    runOr (x :: r) = x.2.bit_changes ||| runOr r := by
  show (x :: r).foldl (fun acc p => acc ||| p.2.bit_changes) 0 = _
  rw [List.foldl_cons, runOr_shift, Nat.zero_or]

theorem takeRun_snd_length (k : ℚ) :
    ∀ xs : List (ℚ × Message), (takeRun k xs).2.length ≤ xs.length := by
  intro xs
  induction xs with
  | nil => simp [takeRun]
  | cons x xs ih =>
    by_cases hx : x.1 = k
    · simp only [takeRun, if_pos hx]
      exact Nat.le_succ_of_le ih
    · simp [takeRun, hx]

theorem chunkAux_eq :
    ∀ (xs : List (ℚ × Message)) (k : ℚ) (cur : List (ℚ × Message)),
      chunkAux xs k cur = (cur ++ (takeRun k xs).1) :: chunk (takeRun k xs).2 := by
  intro xs
  induction xs with
  | nil => intro k cur; simp [chunkAux, takeRun, chunk]
  | cons x xs ih =>
    intro k cur
    by_cases hx : x.1 = k
    · rw [chunkAux, if_pos hx, ih k (cur ++ [x])]
      simp [takeRun, hx]
    · rw [chunkAux, if_neg hx, ih x.1 [x]]
      simp only [takeRun, if_neg hx]
      rw [show chunk (x :: xs) = chunkAux xs x.1 [x] from rfl, ih x.1 [x]]
      simp

theorem chunk_cons (x : ℚ × Message) (xs : List (ℚ × Message)) :
    chunk (x :: xs) =
      (x :: (takeRun x.1 xs).1) :: chunk (takeRun x.1 xs).2 := by
  show chunkAux xs x.1 [x] = _
  rw [chunkAux_eq]
  simp

theorem changeLoop_run_end (k : ℚ) :
    ∀ (xs : List (ℚ × Message)) (gc : Nat),
      (takeRun k xs).2 = [] →
      changeLoop xs (some k) gc =
        decide (0 < gc ||| runOr (takeRun k xs).1) := by
  intro xs
  induction xs with
  | nil =>
    intro gc _
    show decide (0 < gc) = decide (0 < gc ||| runOr [])
    simp [runOr]
  | cons x xs ih =>
    intro gc htr
    obtain ⟨g, m⟩ := x
    by_cases hx : g = k
    · subst hx
      have htr' : (takeRun g xs).2 = [] := by
        rw [takeRun, if_pos (rfl : (g, m).1 = g)] at htr
        exact htr
      simp only [changeLoop, Option.getD_some]
      rw [if_pos trivial]
      rw [ih (gc ||| m.bit_changes) htr']
      rw [takeRun, if_pos (rfl : (g, m).1 = g)]
      show decide (0 < (gc ||| m.bit_changes) ||| runOr (takeRun g xs).1) =
        decide (0 < gc ||| runOr ((g, m) :: (takeRun g xs).1))
      rw [runOr_cons]
      show _ = decide (0 < gc ||| (m.bit_changes ||| runOr (takeRun g xs).1))
      rw [← Nat.lor_assoc]
    · rw [takeRun] at htr
      rw [if_neg (show ¬((g, m).1 = k) from hx)] at htr
      exact absurd htr (by simp)

theorem changeLoop_run_boundary (k : ℚ) :
    ∀ (xs : List (ℚ × Message)) (gc : Nat) (y : ℚ × Message)
      (ys : List (ℚ × Message)),
      (takeRun k xs).2 = y :: ys →
      changeLoop xs (some k) gc =
        (if gc ||| runOr (takeRun k xs).1 = 0 then false
         else changeLoop ys (some y.1) 0) := by
  intro xs
  induction xs with
  | nil =>
    intro gc y ys htr
    exact absurd htr (by simp [takeRun])
  | cons x xs ih =>
    intro gc y ys htr
    obtain ⟨g, m⟩ := x
    by_cases hx : g = k
    · subst hx
      have htr' : (takeRun g xs).2 = y :: ys := by
        rw [takeRun, if_pos (rfl : (g, m).1 = g)] at htr
        exact htr
      simp only [changeLoop, Option.getD_some]
      rw [if_pos trivial]
      rw [ih (gc ||| m.bit_changes) y ys htr']
      rw [takeRun, if_pos (rfl : (g, m).1 = g)]
      show (if (gc ||| m.bit_changes) ||| runOr (takeRun g xs).1 = 0 then false
        else changeLoop ys (some y.1) 0) =
        (if gc ||| runOr ((g, m) :: (takeRun g xs).1) = 0 then false
         else changeLoop ys (some y.1) 0)
      rw [runOr_cons]
      show _ = (if gc ||| (m.bit_changes ||| runOr (takeRun g xs).1) = 0
        then false else changeLoop ys (some y.1) 0)
      rw [← Nat.lor_assoc]
    · rw [takeRun] at htr
      rw [if_neg (show ¬((g, m).1 = k) from hx)] at htr
      simp only at htr
      obtain ⟨rfl, rfl⟩ := List.cons_eq_cons.mp htr
      simp only [changeLoop, Option.getD_some]
      rw [if_neg hx]
      show (if gc = 0 then false else changeLoop xs (some g) 0) =
        (if gc ||| runOr (takeRun k ((g, m) :: xs)).1 = 0 then false
         else changeLoop xs (some g) 0)
      rw [takeRun, if_neg (show ¬((g, m).1 = k) from hx)]
      show (if gc = 0 then false else changeLoop xs (some g) 0) =
        (if gc ||| runOr [] = 0 then false else changeLoop xs (some g) 0)
      rw [show runOr ([] : List (ℚ × Message)) = 0 from rfl, Nat.or_zero]

theorem changeLoop_dropFirst :
    ∀ (n : Nat) (ys : List (ℚ × Message)) (k : ℚ),
      ys.length ≤ n →
      changeLoop ys (some k) 0 =
        ((runOr (takeRun k ys).1 != 0) &&
          ((chunk (takeRun k ys).2).all (fun r => runOr (r.drop 1) != 0))) := by
  intro n
  induction n with
  | zero =>
    intro ys k hlen
    obtain rfl : ys = [] := List.length_eq_zero.mp (Nat.le_zero.mp hlen)
    show decide (0 < 0) = _
    simp [takeRun, chunk, runOr]
  | succ n ih =>
    intro ys k hlen
    cases htr : (takeRun k ys).2 with
    | nil =>
      rw [changeLoop_run_end k ys 0 htr]
      rw [show chunk ([] : List (ℚ × Message)) = [] from rfl, List.all_nil,
        Bool.and_true, Nat.zero_or, bne_zero_eq]
    | cons y ys' =>
      rw [changeLoop_run_boundary k ys 0 y ys' htr]
      have hlen' : ys'.length ≤ n := by
        have h1 := takeRun_snd_length k ys
        rw [htr] at h1
        simp only [List.length_cons] at h1
        omega
      rw [chunk_cons, List.all_cons]
      show (if 0 ||| runOr (takeRun k ys).1 = 0 then false
        else changeLoop ys' (some y.1) 0) =
        ((runOr (takeRun k ys).1 != 0) &&
          ((runOr (takeRun y.1 ys').1 != 0) &&
            ((chunk (takeRun y.1 ys').2).all (fun r => runOr (r.drop 1) != 0))))
      rw [← ih ys' y.1 hlen']
      rw [Nat.zero_or]
      by_cases hz : runOr (takeRun k ys).1 = 0
      · rw [if_pos hz, hz]
        simp
      · rw [if_neg hz]
        have hb : (runOr (takeRun k ys).1 != 0) = true := by
          rw [bne_zero_eq]
          exact decide_eq_true (Nat.pos_of_ne_zero hz)
        rw [hb, Bool.true_and]

/-- C1 counterexample: a tracker present in both of its two groups whose
bit-changes-annotated flattened sequence has runs `[0, 3]` (OR 3) and `[7]`
(OR 7) — every run's OR is nonzero, so the claim as stated requires the
check to return true — yet `in_all_groups_with_change` returns false,
because the loop never ORs in the first message of a later run. -/
theorem universal_change_counterexample :
    (MessageTracker.mk "0:11"
        [(1, [⟨"0:11", 1, "01", 0⟩, ⟨"0:11", 1, "02", 0⟩]),
         (2, [⟨"0:11", 2, "05", 0⟩])]
        [(1, ⟨"0:aa", 0, "00", 0⟩), (2, ⟨"0:aa", 0, "00", 0⟩)] 2).in_all = true ∧
      specUniversalChange (MessageTracker.mk "0:11"
        [(1, [⟨"0:11", 1, "01", 0⟩, ⟨"0:11", 1, "02", 0⟩]),
         (2, [⟨"0:11", 2, "05", 0⟩])]
        [(1, ⟨"0:aa", 0, "00", 0⟩), (2, ⟨"0:aa", 0, "00", 0⟩)] 2) = true ∧
      (MessageTracker.mk "0:11"
        [(1, [⟨"0:11", 1, "01", 0⟩, ⟨"0:11", 1, "02", 0⟩]),
         (2, [⟨"0:11", 2, "05", 0⟩])]
        [(1, ⟨"0:aa", 0, "00", 0⟩), (2, ⟨"0:aa", 0, "00", 0⟩)]
        2).in_all_groups_with_change = false := by
  decide

/-- C1 amended: `in_all_groups_with_change` returns true iff the tracker is
in all groups and, partitioning the annotated flattened sequence into
consecutive runs by group key, the sequence is nonempty, the first run's OR
over all its messages is nonzero, and every later run's OR over its messages
*excluding the run's first message* is nonzero (the loop skips the message
at each group transition). -/
theorem universal_change_amended (t : MessageTracker) :
    t.in_all_groups_with_change =
      (t.in_all &&
        specUniversalChangeDropFirst t.group_message_tuples_with_bit_changes) := by
  unfold MessageTracker.in_all_groups_with_change
  cases hall : t.in_all with
  | false => simp
  | true =>
    simp only [Bool.not_true, Bool.false_eq_true, if_false, Bool.true_and]
    cases hl : t.group_message_tuples_with_bit_changes with
    | nil => rfl
    | cons x xs =>
      obtain ⟨g, m⟩ := x
      simp only [changeLoop, Option.getD_none]
      rw [if_pos trivial, Nat.zero_or]
      unfold specUniversalChangeDropFirst
      rw [chunk_cons]
      show changeLoop xs (some g) m.bit_changes =
        ((runOr ((g, m) :: (takeRun g xs).1) != 0) &&
          ((chunk (takeRun g xs).2).all (fun r => runOr (r.drop 1) != 0)))
      cases htr : (takeRun g xs).2 with
      | nil =>
        rw [changeLoop_run_end g xs m.bit_changes htr]
        rw [show chunk ([] : List (ℚ × Message)) = [] from rfl, List.all_nil,
          Bool.and_true, runOr_cons]
        show decide (0 < m.bit_changes ||| runOr (takeRun g xs).1) =
          ((m.bit_changes ||| runOr (takeRun g xs).1) != 0)
        rw [bne_zero_eq]
      | cons y ys =>
        rw [changeLoop_run_boundary g xs m.bit_changes y ys htr]
        rw [chunk_cons, List.all_cons]
        show (if m.bit_changes ||| runOr (takeRun g xs).1 = 0 then false
          else changeLoop ys (some y.1) 0) =
          ((runOr ((g, m) :: (takeRun g xs).1) != 0) &&
            ((runOr (takeRun y.1 ys).1 != 0) &&
              ((chunk (takeRun y.1 ys).2).all (fun r => runOr (r.drop 1) != 0))))
        rw [← changeLoop_dropFirst ys.length ys y.1 le_rfl]
        rw [runOr_cons]
        show (if m.bit_changes ||| runOr (takeRun g xs).1 = 0 then false
          else changeLoop ys (some y.1) 0) =
          (((m.bit_changes ||| runOr (takeRun g xs).1) != 0) &&
            changeLoop ys (some y.1) 0)
        by_cases hz : m.bit_changes ||| runOr (takeRun g xs).1 = 0
        · rw [if_pos hz, hz]
          simp
        · rw [if_neg hz]
          have hb : ((m.bit_changes ||| runOr (takeRun g xs).1) != 0) = true := by
            rw [bne_zero_eq]
            exact decide_eq_true (Nat.pos_of_ne_zero hz)
          rw [hb, Bool.true_and]

/-! ### Toggle-count symmetry lemmas (C3) -/

theorem zipAdd_getD_le :
    ∀ (l1 l2 : List Nat), (∀ x ∈ l2, x ≤ 1) → ∀ j : Nat,
      ((l1.zip l2).map (fun p => p.1 + p.2)).getD j 0 ≤ l1.getD j 0 + 1 := by
  intro l1
  induction l1 with
  | nil => intro l2 _ j; simp
  | cons a l1 ih =>
    intro l2 hle j
    cases l2 with
    | nil => simp
    | cons b l2 =>
      cases j with
      | zero =>
        simp only [List.zip_cons_cons, List.map_cons, List.getD_cons_zero]
        have := hle b (List.mem_cons_self _ _)
        omega
      | succ j =>
        simp only [List.zip_cons_cons, List.map_cons, List.getD_cons_succ]
        exact ih l2 (fun x hx => hle x (List.mem_cons_of_mem _ hx)) j

theorem track_getD_le (t : MessageChangeTracker) (m : Message) (j : Nat) :
    (t.track_changes_to m).bit_changes_count.getD j 0 ≤
      t.bit_changes_count.getD j 0 + 1 := by
  unfold MessageChangeTracker.track_changes_to
  apply zipAdd_getD_le
  intro x hx
  obtain ⟨c, _, hc⟩ := List.mem_map.mp hx
  rw [← hc]
  split <;> omega

theorem trackFold_getD_le :
    ∀ (ms : List Message) (t : MessageChangeTracker) (j : Nat),
      (trackFold t ms).bit_changes_count.getD j 0 ≤
        t.bit_changes_count.getD j 0 + ms.length := by
  intro ms
  induction ms with
  | nil => intro t j; simp [trackFold]
  | cons m ms ih =>
    intro t j
    show (trackFold (t.track_changes_to m) ms).bit_changes_count.getD j 0 ≤ _
    have h1 := ih (t.track_changes_to m) j
    have h2 := track_getD_le t m j
    simp only [List.length_cons]
    omega

/-- C3: in one `track_changes_to` step from a baseline with payload `a` to a
message with payload `b` (both 64-bit), the counter for bit position `pos`
(stored at list index `63 - pos`) is incremented by exactly 1 iff bit `pos`
is set in `a XOR b`, and no bit at position 64 or above is set in the diff;
moreover, after any sequence of `n` steps from a fresh tracker every
toggle-count entry is at most `n`. -/
theorem toggle_count_symmetry :
    (∀ (t : MessageChangeTracker) (m p : Message),
      t.bit_comparers = (List.range 64).map (fun i => 2 ^ (63 - i)) →
      t.bit_changes_count.length = 64 →
      t.base_message = some p →
      hexVal m.data < 2 ^ 64 → hexVal p.data < 2 ^ 64 →
      ∀ pos : ℕ,
        (pos < 64 →
          (t.track_changes_to m).bit_changes_count.getD (63 - pos) 0 =
            t.bit_changes_count.getD (63 - pos) 0 +
              (if (hexVal m.data ^^^ hexVal p.data).testBit pos then 1
               else 0)) ∧
        (64 ≤ pos → (hexVal m.data ^^^ hexVal p.data).testBit pos = false)) ∧
    (∀ (group_ts : ℚ) (message_id : String) (r b : Option Message)
      (ms : List Message),
      ∀ c ∈ (trackFold (MessageChangeTracker.init group_ts message_id r b)
          ms).bit_changes_count, c ≤ ms.length) := by
  constructor
  · intro t m p hcmp hlen hbase hm hp pos
    constructor
    · intro hpos
      have h := (track_counts t m hcmp hlen).2 (63 - pos) (by omega)
      rw [h]
      have hbit : m.bit_changes_from t.base_message =
          hexVal m.data ^^^ hexVal p.data := by
        rw [hbase]
        rfl
      rw [hbit, show 63 - (63 - pos) = pos from by omega]
    · intro hpos
      apply Nat.testBit_eq_false_of_lt
      calc hexVal m.data ^^^ hexVal p.data < 2 ^ 64 :=
            Nat.xor_lt_two_pow hm hp
        _ ≤ 2 ^ pos := Nat.pow_le_pow_right (by omega) hpos
  · intro group_ts message_id r b ms c hc
    obtain ⟨j, hj, hcj⟩ := List.mem_iff_getElem.mp hc
    have hfold := trackFold_getD_le ms
      (MessageChangeTracker.init group_ts message_id r b) j
    have hz : (MessageChangeTracker.init group_ts message_id r
        b).bit_changes_count.getD j 0 = 0 := by
      show (List.replicate 64 (0 : ℕ)).getD j 0 = 0
      rcases Nat.lt_or_ge j 64 with hlt | hge
      · rw [List.getD_eq_getElem _ 0 (by simpa using hlt)]
        exact List.getElem_replicate ..
      · exact List.getD_eq_default _ 0 (by simpa using hge)
    rw [hz] at hfold
    rw [← List.getD_eq_getElem _ 0 hj] at hcj
    omega

theorem toggle_count_symmetry_witness :
    ((MessageChangeTracker.init 1 "0:11" none
        (some ⟨"0:11", 1, "03", 0⟩)).track_changes_to
          ⟨"0:11", 1, "01", 0⟩).bit_changes_count.getD (63 - 1) 0 =
      (MessageChangeTracker.init 1 "0:11" none
        (some ⟨"0:11", 1, "03", 0⟩)).bit_changes_count.getD (63 - 1) 0 +
        (if (hexVal "01" ^^^ hexVal "03").testBit 1 then 1 else 0) ∧
    ∀ c ∈ (trackFold (MessageChangeTracker.init 1 "0:11" none none)
        [⟨"0:11", 1, "01", 0⟩, ⟨"0:11", 1, "02", 0⟩]).bit_changes_count,
      c ≤ 2 :=
  ⟨(toggle_count_symmetry.1
      (MessageChangeTracker.init 1 "0:11" none (some ⟨"0:11", 1, "03", 0⟩))
      ⟨"0:11", 1, "01", 0⟩ ⟨"0:11", 1, "03", 0⟩ rfl rfl rfl
      (by decide) (by decide) 1).1 (by decide),
   toggle_count_symmetry.2 1 "0:11" none none
     [⟨"0:11", 1, "01", 0⟩, ⟨"0:11", 1, "02", 0⟩]⟩

theorem reference_id_never_tracked_witness :
    ("0:22", (⟨"0:22", [⟨"0:22", 2, "07", 0⟩]⟩ : MessageTypeCollection)).1 ≠
        "0" ++ ":" ++ "ab" ∧
      ∀ m ∈ ("0:22",
          (⟨"0:22", [⟨"0:22", 2, "07", 0⟩]⟩ : MessageTypeCollection)).2.messages,
        m.id ≠ "0" ++ ":" ++ "ab" :=
  reference_id_never_tracked "ab" "0" 0 10
    [⟨1, "0xab", "0", "0x11"⟩, ⟨2, "0x22", "0", "07"⟩, ⟨3, "0xab", "0", "11"⟩]
    ⟨1, ⟨"0:ab", 1, "11", 0⟩, [("0:22", ⟨"0:22", [⟨"0:22", 2, "07", 0⟩]⟩)]⟩
    (by decide)
    ("0:22", ⟨"0:22", [⟨"0:22", 2, "07", 0⟩]⟩)
    (by decide)

end Panda
